import Mathlib

/-!
Shallow embedding of the core components of the donation-instruction
generator: the text/amount normalizer (`scr/text_utils.py`), the
proportional allocator (`scr/allocation.py`), and the header-detection
logic (`scr/excel_reader.py`).

Python `Decimal` values are modelled as `ℚ` with exact arithmetic
(the claims under study only involve amounts far inside `Decimal`'s
28-significant-digit context, where `Decimal` arithmetic is exact).
Strings are modelled as `String`/`List Char` with explicit code-point
arithmetic mirroring the Python source.
-/

/-- Set of characters matched by Python's regex `\s` (and stripped by
`str.strip()`): ASCII whitespace, the C1 separators, and the Unicode
space separators, including the ideographic space U+3000. -/
def isPySpace (c : Char) : Bool :=
  let n := c.toNat
  decide ((0x09 ≤ n ∧ n ≤ 0x0D) ∨ (0x1C ≤ n ∧ n ≤ 0x1F) ∨ n = 0x20 ∨ n = 0x85 ∨
    n = 0xA0 ∨ n = 0x1680 ∨ (0x2000 ≤ n ∧ n ≤ 0x200A) ∨ n = 0x2028 ∨ n = 0x2029 ∨
    n = 0x202F ∨ n = 0x205F ∨ n = 0x3000)

/-- Replacement of every maximal run of whitespace by a single blank,
the effect of `re.sub(r"\s+", " ", text)`. -/
def collapse : List Char → List Char
  | [] => []
  | c :: rest =>
    let r := collapse rest
    if isPySpace c then (if r.head? = some ' ' then r else ' ' :: r) else c :: r

/-- Drops matching characters from the end of a list. -/
def dropTrail (p : Char → Bool) (l : List Char) : List Char :=
  (l.reverse.dropWhile p).reverse

/-- Python `str.strip()`: removes whitespace from both ends. -/
def pyStrip (l : List Char) : List Char :=
  dropTrail isPySpace (l.dropWhile isPySpace)

/-- Python `str.strip()` on a `String`. -/
def pyStripStr (s : String) : String :=
  ⟨pyStrip s.data⟩

/-- The function `normalize_whitespace` of `scr/text_utils.py`:
`re.sub(r"\s+", " ", text).strip()`. -/
def normalize_whitespace (text : String) : String :=
  ⟨pyStrip (collapse text.data)⟩

/-- Characters rewritten by `to_half_width`: the ideographic space U+3000
and the full-width ASCII block U+FF01–U+FF5E. -/
def isFullWidth (c : Char) : Bool :=
  decide (c.toNat = 0x3000 ∨ (0xFF01 ≤ c.toNat ∧ c.toNat ≤ 0xFF5E))

/-- Per-character action of `to_half_width` in `scr/text_utils.py`. -/
def toHalfWidthChar (c : Char) : Char :=
  if c.toNat = 0x3000 then ' '
  else if 0xFF01 ≤ c.toNat ∧ c.toNat ≤ 0xFF5E then Char.ofNat (c.toNat - 0xFEE0)
  else c

/-- The function `to_half_width` of `scr/text_utils.py`. -/
def to_half_width (text : String) : String :=
  ⟨text.data.map toHalfWidthChar⟩

/-- Character-list core of `canonicalize_header`: half-width conversion,
newline-to-blank, whitespace normalization, lower-casing, removal of both
paren styles, removal of blanks. -/
def canonList (l0 : List Char) : List Char :=
  let l := l0.map toHalfWidthChar
  let l := l.map (fun c => if c = '\n' then ' ' else c)
  let l := pyStrip (collapse l)
  let l := l.map Char.toLower
  let l := l.filter (fun c => decide (c ≠ '(' ∧ c ≠ ')' ∧ c ≠ '（' ∧ c ≠ '）'))
  l.filter (fun c => decide (c ≠ ' '))

/-- The function `canonicalize_header` of `scr/text_utils.py`. -/
def canonicalize_header (name : String) : String :=
  ⟨canonList name.data⟩

/-- Characters of the regex class `[\\/:*?"<>|]` used in `_ILLEGAL_FILE_CHARS`. -/
def illegalFileChar (c : Char) : Bool :=
  decide (c ∈ ['\\', '/', ':', '*', '?', '"', '<', '>', '|'])

/-- The function `sanitize_file_stem` of `scr/text_utils.py`. Python's
`s.strip(".")` removes periods from BOTH ends. -/
def sanitize_file_stem (name : String) : String :=
  let s := (to_half_width (normalize_whitespace name)).data
  let s := s.map (fun c => if illegalFileChar c then '_' else c)
  let s := dropTrail (fun c => decide (c = '.')) (s.dropWhile (fun c => decide (c = '.')))
  if s = [] then "未命名" else ⟨s⟩

/-- Modelled from the spec's words for the claimed behaviour of
`sanitize_file_stem`: identical pipeline but stripping only TRAILING
periods, as the spec sentence "strips trailing periods" describes. -/
def sanitizeStemClaimed (name : String) : String :=
  let s := (to_half_width (normalize_whitespace name)).data
  let s := s.map (fun c => if illegalFileChar c then '_' else c)
  let s := dropTrail (fun c => decide (c = '.')) s
  if s = [] then "未命名" else ⟨s⟩

/-- Modelled from the spec for the amended C9: the claimed pipeline with
the period-stripping step corrected to remove periods from both ends. -/
def sanitizeStemAmended (name : String) : String :=
  let s := (to_half_width (normalize_whitespace name)).data
  let s := s.map (fun c => if illegalFileChar c then '_' else c)
  let s := dropTrail (fun c => decide (c = '.')) (s.dropWhile (fun c => decide (c = '.')))
  if s = [] then "未命名" else ⟨s⟩

/-- Rounding of a rational to an integer, half away from zero: the
semantics of `decimal.ROUND_HALF_UP`. -/
def rhalf (x : ℚ) : ℤ :=
  if 0 ≤ x then ⌊x + 1/2⌋ else -⌊-x + 1/2⌋

/-- The function `quantize_2` of `scr/text_utils.py`:
`value.quantize(Decimal("0.00"), rounding=ROUND_HALF_UP)`. -/
def quantize_2 (value : ℚ) : ℚ :=
  (rhalf (value * 100) : ℚ) / 100

/-- Python's `s or Decimal("0")` applied to a nullable share. -/
def orZero : Option ℚ → ℚ
  | none => 0
  | some q => q

/-- The allocation loop of `allocate_proportional`: every element except
the last receives its quantized proportional part and is added to the
running sum; the last element receives `quantize_2 (total - running)`. -/
def allocGo (total ts : ℚ) : List (Option ℚ) → ℚ → List ℚ
  | [], _ => []
  | [_], run => [quantize_2 (total - run)]
  | s :: s2 :: rest, run =>
    let q := quantize_2 (total * orZero s / ts)
    q :: allocGo total ts (s2 :: rest) (run + q)

/-- The function `allocate_proportional` of `scr/allocation.py`. -/
def allocate_proportional (total : ℚ) (shares : List (Option ℚ)) : List ℚ :=
  if shares = [] then []
  else
    let ts := (shares.map orZero).sum
    if ts = 0 then shares.map (fun _ => (0 : ℚ))
    else allocGo total ts shares 0

/-- Result of constructing a Python `Decimal`: a finite exact decimal,
a NaN (the constructor accepts `"nan"`/`"snan"` literals), or a signed
infinity. -/
inductive DecVal where
  | finite (q : ℚ)
  | nan
  | inf (neg : Bool)
deriving DecidableEq, Repr

/-- Python input values relevant to `to_decimal`: `None`, an existing
`Decimal`, or a string. -/
inductive PyVal where
  | none
  | dec (q : ℚ)
  | str (s : String)

/-- ASCII decimal digit test. -/
def digChar (c : Char) : Bool :=
  decide ('0' ≤ c ∧ c ≤ '9')

/-- Value of a list of ASCII digits, most significant first. -/
def digitsToNat (l : List Char) : Nat :=
  l.foldl (fun a c => 10 * a + (c.toNat - '0'.toNat)) 0

/-- Python ASCII lower-casing of a string (sufficient for the inputs
handled here: full-width letters are not in the checked token set either
way). -/
def pyLower (s : String) : String :=
  ⟨s.data.map Char.toLower⟩

/-- Symbolic result of the `Decimal` numeric-string grammar: a finite
value as sign, digit value, fractional length and optional exponent, or
a NaN, or a signed infinity. -/
inductive DecSym where
  | fin (neg : Bool) (v fl : Nat) (e : Option ℤ)
  | nan
  | inf (neg : Bool)
deriving DecidableEq

/-- Parses an optionally signed run of digits, the exponent part of the
`Decimal` numeric-string grammar. -/
def parseSignedDigits (l : List Char) : Option ℤ :=
  match l with
  | '+' :: ds => if ds ≠ [] ∧ ds.all digChar then some (digitsToNat ds : ℤ) else none
  | '-' :: ds => if ds ≠ [] ∧ ds.all digChar then some (-(digitsToNat ds : ℤ)) else none
  | ds => if ds ≠ [] ∧ ds.all digChar then some (digitsToNat ds : ℤ) else none

/-- Parses the mantissa `digits [. digits]` of the `Decimal` grammar,
returning the digit value and the number of fractional digits. -/
def parseMantissa (l : List Char) : Option (Nat × Nat) :=
  let ip := l.takeWhile (fun c => decide (c ≠ '.'))
  let rest := l.dropWhile (fun c => decide (c ≠ '.'))
  let frac : Option (List Char) :=
    match rest with
    | [] => some []
    | _ :: fp => if fp.all digChar then some fp else none
  match frac with
  | none => none
  | some fp =>
    if ip.all digChar ∧ ip ++ fp ≠ [] then some (digitsToNat (ip ++ fp), fp.length)
    else none

/-- Parses the numeric part `mantissa [e exponent]` of the `Decimal`
grammar (input already lower-cased, sign already removed). -/
def parseNumeric (l : List Char) : Option (Nat × Nat × Option ℤ) :=
  let mant := l.takeWhile (fun c => decide (c ≠ 'e'))
  let rest := l.dropWhile (fun c => decide (c ≠ 'e'))
  match rest with
  | [] =>
    match parseMantissa mant with
    | some (v, fl) => some (v, fl, Option.none)
    | none => none
  | _ :: es =>
    match parseSignedDigits es, parseMantissa mant with
    | some e, some (v, fl) => some (v, fl, some e)
    | _, _ => none

/-- Character-level phase of the Python `Decimal(string)` constructor:
strips surrounding whitespace, removes underscores, and parses the
case-insensitive numeric-string grammar, which also accepts
`inf`/`infinity`, `nan [digits]` and `snan [digits]`. -/
def parseDecimalSym (s : String) : Option DecSym :=
  let l := pyStrip s.data
  let l := l.filter (fun c => decide (c ≠ '_'))
  let l := l.map Char.toLower
  let sr : Bool × List Char :=
    match l with
    | '+' :: r => (false, r)
    | '-' :: r => (true, r)
    | r => (false, r)
  let neg := sr.1
  let r := sr.2
  if r = ['i', 'n', 'f'] ∨ r = ['i', 'n', 'f', 'i', 'n', 'i', 't', 'y'] then
    some (.inf neg)
  else if r.take 3 = ['n', 'a', 'n'] ∧ (r.drop 3).all digChar then some .nan
  else if r.take 4 = ['s', 'n', 'a', 'n'] ∧ (r.drop 4).all digChar then some .nan
  else
    match parseNumeric r with
    | some (v, fl, e) => some (.fin neg v fl e)
    | none => Option.none

/-- Numeric value of a parsed `Decimal` literal. -/
def decSymVal : DecSym → DecVal
  | .fin neg v fl e =>
    let m : ℚ := (v : ℚ) / 10 ^ fl
    let q : ℚ := match e with
      | Option.none => m
      | some e => m * (10 : ℚ) ^ (e : ℤ)
    .finite (if neg then -q else q)
  | .nan => .nan
  | .inf neg => .inf neg

/-- The Python `Decimal(string)` constructor. -/
def parseDecimalString (s : String) : Option DecVal :=
  (parseDecimalSym s).map decSymVal

/-- Comma, currency-marker, blank and parenthesized-negative processing
of `to_decimal` in `scr/text_utils.py`, applied after the half-width
conversion. -/
def moneyStrip (s0 : String) : String :=
  let l := (to_half_width s0).data
  let l := l.filter (fun c => decide (c ≠ ','))
  let l := l.filter (fun c => decide (c ≠ '元'))
  let l := l.filter (fun c => decide (c ≠ ' '))
  let l := if l.head? = some '(' ∧ l.getLast? = some ')' then
    '-' :: (l.drop 1).dropLast else l
  ⟨l⟩

/-- The function `to_decimal` of `scr/text_utils.py`. -/
def to_decimal : PyVal → Option DecVal
  | .none => Option.none
  | .dec q => some (.finite q)
  | .str v =>
    let s0 := pyStripStr v
    if s0 = "" ∨ pyLower s0 = "nan" ∨ pyLower s0 = "none" ∨ pyLower s0 = "null" then
      Option.none
    else
      parseDecimalString (moneyStrip s0)

/-- Score of one raw row during the fallback header scan of
`_detect_header_and_read` in `scr/excel_reader.py`: the number of logical
fields (synonym sets) with at least one synonym whose canonical form
occurs among the row's canonicalized cells. -/
def rowScore (required : List (List String)) (row : List String) : Nat :=
  let canon := row.map canonicalize_header
  (required.filter (fun cands => cands.any (fun c => decide (canonicalize_header c ∈ canon)))).length

/-- The fallback scan loop of `_detect_header_and_read`: iterates over
row scores carrying `(best_row, best_score)`, updating on `score > best_score`. -/
def scanLoop : List Nat → Nat → Option Nat × Int → Option Nat × Int
  | [], _, acc => acc
  | sc :: rest, idx, (br, bs) =>
    if bs < (sc : Int) then scanLoop rest (idx + 1) (some idx, (sc : Int))
    else scanLoop rest (idx + 1) (br, bs)

/-- Running maximum of a list of row scores over an initial best score,
the value tracked by `best_score` in the scan loop. -/
def foldMax (ss : List Nat) (bs : Int) : Int :=
  ss.foldl (fun a n => max a (n : Int)) bs

/-- Fallback phase of `_detect_header_and_read`: scans the first
`min 6 (raw.length)` rows starting from `(None, -1)` and fails (returns
`none`, the `"无法定位表头行"` error) when no row was seen or the best
score is at most 0. -/
def fallback_detect (required : List (List String)) (raw : List (List String)) : Option Nat :=
  let scores := (raw.take 6).map (rowScore required)
  match scanLoop scores 0 (Option.none, -1) with
  | (Option.none, _) => Option.none
  | (some r, bs) => if bs ≤ 0 then Option.none else some r

/-- A holding-roster record as built by `read_holding_records`. -/
structure HoldingRecord where
  product_name : String
  customer_name : String
  share : Option DecVal
deriving DecidableEq

/-- Projection of one roster row in `read_holding_records` of
`scr/excel_reader.py`: the row is dropped iff the normalized product or
customer name is empty; the share is parsed with `to_decimal` and kept
as-is (possibly absent). -/
def process_holding_row (product customer : String) (share : PyVal) : Option HoldingRecord :=
  let p := normalize_whitespace (pyStripStr product)
  let c := normalize_whitespace (pyStripStr customer)
  if p = "" ∨ c = "" then Option.none
  else some ⟨p, c, to_decimal share⟩

/-! ### Lemmas about quantization -/

theorem rhalf_near (x : ℚ) : |x - (rhalf x : ℚ)| ≤ 1 / 2 := by
  unfold rhalf
  split
  · have h1 : ((⌊x + 1/2⌋ : ℤ) : ℚ) ≤ x + 1/2 := Int.floor_le _
    have h2 : x + 1/2 < (⌊x + 1/2⌋ : ℤ) + 1 := Int.lt_floor_add_one _
    rw [abs_le]
    constructor <;> [linarith; linarith]
  · have h1 : ((⌊-x + 1/2⌋ : ℤ) : ℚ) ≤ -x + 1/2 := Int.floor_le _
    have h2 : -x + 1/2 < (⌊-x + 1/2⌋ : ℤ) + 1 := Int.lt_floor_add_one _
    rw [abs_le]
    push_cast
    constructor <;> [linarith; linarith]

theorem rhalf_tie (x : ℚ) (h : |x - (rhalf x : ℚ)| = 1 / 2) :
    |(rhalf x : ℚ)| = |x| + 1 / 2 := by
  unfold rhalf at *
  split at h
  · rename_i hx
    have h2 : x + 1/2 < ((⌊x + 1/2⌋ : ℤ) : ℚ) + 1 := Int.lt_floor_add_one _
    rcases (abs_eq (by norm_num : (0:ℚ) ≤ 1/2)).mp h with he | he
    · linarith
    · have hn : ((⌊x + 1/2⌋ : ℤ) : ℚ) = x + 1/2 := by linarith
      rw [if_pos hx, hn, abs_of_nonneg hx, abs_of_nonneg (by linarith : (0:ℚ) ≤ x + 1/2)]
  · rename_i hx
    have h2 : -x + 1/2 < ((⌊-x + 1/2⌋ : ℤ) : ℚ) + 1 := Int.lt_floor_add_one _
    have h1 : ((⌊-x + 1/2⌋ : ℤ) : ℚ) ≤ -x + 1/2 := Int.floor_le _
    rw [Int.cast_neg] at h
    rcases (abs_eq (by norm_num : (0:ℚ) ≤ 1/2)).mp h with he | he
    · have hn : ((⌊-x + 1/2⌋ : ℤ) : ℚ) = -x + 1/2 := by linarith
      rw [if_neg hx, Int.cast_neg, abs_neg, hn,
        abs_of_nonneg (by linarith : (0:ℚ) ≤ -x + 1/2), abs_of_neg (not_le.mp hx)]
    · linarith

theorem quantize_2_near (q : ℚ) : |q - quantize_2 q| ≤ 1 / 200 := by
  unfold quantize_2
  have h := rhalf_near (q * 100)
  have h100 : |q - (rhalf (q * 100) : ℚ) / 100| = |q * 100 - (rhalf (q * 100) : ℚ)| / 100 := by
    rw [show q - (rhalf (q * 100) : ℚ) / 100 = (q * 100 - (rhalf (q * 100) : ℚ)) / 100 by ring,
      abs_div, abs_of_pos (by norm_num : (0:ℚ) < 100)]
  rw [h100]
  linarith

theorem quantize_2_tie (q : ℚ) (h : |q - quantize_2 q| = 1 / 200) :
    |quantize_2 q| = |q| + 1 / 200 := by
  unfold quantize_2 at *
  have h100 : |q - (rhalf (q * 100) : ℚ) / 100| = |q * 100 - (rhalf (q * 100) : ℚ)| / 100 := by
    rw [show q - (rhalf (q * 100) : ℚ) / 100 = (q * 100 - (rhalf (q * 100) : ℚ)) / 100 by ring,
      abs_div, abs_of_pos (by norm_num : (0:ℚ) < 100)]
  rw [h100] at h
  have htie : |q * 100 - (rhalf (q * 100) : ℚ)| = 1 / 2 := by linarith
  have := rhalf_tie (q * 100) htie
  have hq : |q * 100| = |q| * 100 := by
    rw [abs_mul, abs_of_pos (by norm_num : (0:ℚ) < 100)]
  rw [abs_div, abs_of_pos (by norm_num : (0:ℚ) < 100), this, hq]
  ring

theorem quantize_2_den (q : ℚ) : (quantize_2 q * 100).den = 1 := by
  unfold quantize_2
  rw [div_mul_cancel₀ _ (by norm_num : (100:ℚ) ≠ 0)]
  exact Rat.den_intCast _

/-- Quantization fixes every integer number of cents. -/
theorem quantize_2_cents (n : ℤ) : quantize_2 ((n : ℚ) / 100) = (n : ℚ) / 100 := by
  unfold quantize_2 rhalf
  rw [div_mul_cancel₀ _ (by norm_num : (100:ℚ) ≠ 0)]
  rcases le_or_lt 0 (n : ℚ) with h | h
  · rw [if_pos h, Int.floor_int_add]
    norm_num
  · rw [if_neg (not_le.mpr h), show -(n : ℚ) + 1/2 = ((-n : ℤ) : ℚ) + 1/2 by push_cast; ring,
      Int.floor_int_add]
    norm_num

/-- Every quantized value is an integer number of cents. -/
theorem quantize_2_form (v : ℚ) : ∃ n : ℤ, quantize_2 v = (n : ℚ) / 100 :=
  ⟨rhalf (v * 100), rfl⟩

theorem sum_cents (l : List ℚ) (h : ∀ x ∈ l, ∃ n : ℤ, x = (n : ℚ) / 100) :
    ∃ m : ℤ, l.sum = (m : ℚ) / 100 := by
  induction l with
  | nil => exact ⟨0, by simp⟩
  | cons a t ih =>
    obtain ⟨n, hn⟩ := h a (List.mem_cons_self a t)
    obtain ⟨m, hm⟩ := ih (fun x hx => h x (List.mem_cons_of_mem a hx))
    refine ⟨n + m, ?_⟩
    rw [List.sum_cons, hn, hm]
    push_cast
    ring

/-! ### Lemmas about the allocation loop -/

theorem allocate_cons (total : ℚ) (s : Option ℚ) (ss : List (Option ℚ))
    (h : ((s :: ss).map orZero).sum ≠ 0) :
    allocate_proportional total (s :: ss) =
      allocGo total (((s :: ss).map orZero).sum) (s :: ss) 0 := by
  simp only [allocate_proportional, if_neg (List.cons_ne_nil s ss), if_neg h]

/-- Closed form of the loop: quantized proportional parts for all but the
last element, remainder absorption for the last one. -/
theorem allocGo_eq (total ts : ℚ) (l : List (Option ℚ)) (hl : l ≠ []) :
    ∀ run, allocGo total ts l run =
      (l.dropLast.map fun s => quantize_2 (total * orZero s / ts)) ++
        [quantize_2 (total - (run +
          ((l.dropLast.map fun s => quantize_2 (total * orZero s / ts)).sum)))] := by
  induction l with
  | nil => exact absurd rfl hl
  | cons s rest ih =>
    cases rest with
    | nil => intro run; simp [allocGo]
    | cons s2 r2 =>
      intro run
      have h2 := ih (List.cons_ne_nil s2 r2) (run + quantize_2 (total * orZero s / ts))
      simp only [allocGo] at h2 ⊢
      rw [h2, List.dropLast_cons₂, List.map_cons, List.cons_append, List.sum_cons,
        add_assoc]

theorem allocGo_sum (total ts : ℚ) (l : List (Option ℚ)) (hl : l ≠ []) (run : ℚ) :
    (allocGo total ts l run).sum =
      ((l.dropLast.map fun s => quantize_2 (total * orZero s / ts)).sum) +
        quantize_2 (total - (run +
          ((l.dropLast.map fun s => quantize_2 (total * orZero s / ts)).sum))) := by
  rw [allocGo_eq total ts l hl run, List.sum_append, List.sum_cons, List.sum_nil, add_zero]

theorem allocate_zero (total : ℚ) (S : List (Option ℚ)) (hS : S ≠ [])
    (h0 : (S.map orZero).sum = 0) :
    allocate_proportional total S = S.map fun _ => (0 : ℚ) := by
  simp only [allocate_proportional, if_neg hS]
  rw [if_pos h0]

theorem allocGo_map_some (total ts : ℚ) (S : List (Option ℚ)) :
    ∀ run, allocGo total ts (S.map fun s => some (orZero s)) run = allocGo total ts S run := by
  induction S with
  | nil => intro run; rfl
  | cons s rest ih =>
    cases rest with
    | nil => intro run; rfl
    | cons s2 r2 =>
      intro run
      simp only [List.map_cons, allocGo]
      rw [show orZero (some (orZero s)) = orZero s from rfl]
      rw [show (some (orZero s2) :: List.map (fun s => some (orZero s)) r2) =
        List.map (fun s => some (orZero s)) (s2 :: r2) from rfl, ih]

theorem map_orZero_some (S : List (Option ℚ)) :
    ((S.map fun s => some (orZero s)).map orZero) = S.map orZero := by
  rw [List.map_map]
  exact List.map_congr_left fun a _ => rfl

/-! ### Character-level lemmas for the header canonicalizer -/

theorem char_toNat_ofNat {n : Nat} (h : n < 55296) : (Char.ofNat n).toNat = n := by
  have hv : n.isValidChar := Or.inl h
  simp only [Char.ofNat, hv, dite_true, Char.ofNatAux, Char.toNat]
  simp [UInt32.ofNat', UInt32.toNat, BitVec.toNat_ofNatLt]

theorem toHalfWidthChar_not_fullWidth (c : Char) : isFullWidth (toHalfWidthChar c) = false := by
  unfold toHalfWidthChar
  by_cases h1 : c.toNat = 0x3000
  · rw [if_pos h1]
    decide
  · rw [if_neg h1]
    by_cases h2 : 0xFF01 ≤ c.toNat ∧ c.toNat ≤ 0xFF5E
    · rw [if_pos h2]
      have ht := char_toNat_ofNat (show c.toNat - 0xFEE0 < 55296 by omega)
      unfold isFullWidth
      rw [ht, decide_eq_false_iff_not]
      omega
    · rw [if_neg h2]
      unfold isFullWidth
      rw [decide_eq_false_iff_not]
      omega

theorem toHalfWidthChar_id {c : Char} (h : isFullWidth c = false) : toHalfWidthChar c = c := by
  unfold isFullWidth at h
  rw [decide_eq_false_iff_not, not_or] at h
  unfold toHalfWidthChar
  rw [if_neg h.1, if_neg h.2]

theorem toLower_toNat (c : Char) :
    (Char.toLower c).toNat = if 65 ≤ c.toNat ∧ c.toNat ≤ 90 then c.toNat + 32 else c.toNat := by
  simp only [Char.toLower]
  by_cases h : 65 ≤ c.toNat ∧ c.toNat ≤ 90
  · rw [if_pos h, if_pos h]
    exact char_toNat_ofNat (by omega)
  · rw [if_neg h, if_neg h]

theorem toLower_of_not_upper {c : Char} (h : ¬(65 ≤ c.toNat ∧ c.toNat ≤ 90)) :
    Char.toLower c = c :=
  if_neg h

theorem toLower_toLower (c : Char) : Char.toLower (Char.toLower c) = Char.toLower c := by
  by_cases h : 65 ≤ c.toNat ∧ c.toNat ≤ 90
  · have h1 : (Char.toLower c).toNat = c.toNat + 32 := by rw [toLower_toNat, if_pos h]
    exact toLower_of_not_upper (by rw [h1]; omega)
  · simp only [toLower_of_not_upper h]

theorem isPySpace_toLower (c : Char) : isPySpace (Char.toLower c) = isPySpace c := by
  by_cases h : 65 ≤ c.toNat ∧ c.toNat ≤ 90
  · have h1 : (Char.toLower c).toNat = c.toNat + 32 := by rw [toLower_toNat, if_pos h]
    simp only [isPySpace]
    rw [h1, decide_eq_decide]
    omega
  · rw [toLower_of_not_upper h]

theorem isFullWidth_toLower (c : Char) : isFullWidth (Char.toLower c) = isFullWidth c := by
  by_cases h : 65 ≤ c.toNat ∧ c.toNat ≤ 90
  · have h1 : (Char.toLower c).toNat = c.toNat + 32 := by rw [toLower_toNat, if_pos h]
    simp only [isFullWidth]
    rw [h1, decide_eq_decide]
    omega
  · rw [toLower_of_not_upper h]

theorem map_id_of {α : Type} (f : α → α) (l : List α) (h : ∀ a ∈ l, f a = a) :
    l.map f = l := by
  induction l with
  | nil => rfl
  | cons c rest ih =>
    rw [List.map_cons, h c (List.mem_cons_self c rest),
      ih (fun a ha => h a (List.mem_cons_of_mem c ha))]

theorem dropWhile_id_of {p : Char → Bool} {l : List Char} (h : ∀ a ∈ l, p a = false) :
    l.dropWhile p = l := by
  cases l with
  | nil => rfl
  | cons c rest =>
    rw [List.dropWhile_cons, if_neg (by simp [h c (List.mem_cons_self c rest)])]

theorem pyStrip_id {l : List Char} (h : ∀ a ∈ l, isPySpace a = false) : pyStrip l = l := by
  unfold pyStrip dropTrail
  rw [dropWhile_id_of h, dropWhile_id_of (fun a ha => h a (List.mem_reverse.mp ha)),
    List.reverse_reverse]

theorem collapse_id {l : List Char} (h : ∀ a ∈ l, isPySpace a = false) : collapse l = l := by
  induction l with
  | nil => rfl
  | cons c rest ih =>
    simp only [collapse]
    rw [if_neg (by simp [h c (List.mem_cons_self c rest)]),
      ih (fun a ha => h a (List.mem_cons_of_mem c ha))]

theorem mem_collapse {a : Char} {l : List Char} (h : a ∈ collapse l) : a = ' ' ∨ a ∈ l := by
  induction l with
  | nil => simp [collapse] at h
  | cons c rest ih =>
    simp only [collapse] at h
    by_cases hc : isPySpace c = true
    · rw [if_pos hc] at h
      by_cases hh : (collapse rest).head? = some ' '
      · rw [if_pos hh] at h
        rcases ih h with h1 | h1
        · exact Or.inl h1
        · exact Or.inr (List.mem_cons_of_mem c h1)
      · rw [if_neg hh] at h
        rcases List.mem_cons.mp h with rfl | h1
        · exact Or.inl rfl
        · rcases ih h1 with h2 | h2
          · exact Or.inl h2
          · exact Or.inr (List.mem_cons_of_mem c h2)
    · rw [if_neg hc] at h
      rcases List.mem_cons.mp h with rfl | h1
      · exact Or.inr (List.mem_cons_self a rest)
      · rcases ih h1 with h2 | h2
        · exact Or.inl h2
        · exact Or.inr (List.mem_cons_of_mem c h2)

theorem collapse_space {a : Char} {l : List Char} (h : a ∈ collapse l)
    (ha : isPySpace a = true) : a = ' ' := by
  induction l with
  | nil => simp [collapse] at h
  | cons c rest ih =>
    simp only [collapse] at h
    by_cases hc : isPySpace c = true
    · rw [if_pos hc] at h
      by_cases hh : (collapse rest).head? = some ' '
      · rw [if_pos hh] at h
        exact ih h
      · rw [if_neg hh] at h
        rcases List.mem_cons.mp h with rfl | h1
        · rfl
        · exact ih h1
    · rw [if_neg hc] at h
      rcases List.mem_cons.mp h with rfl | h1
      · exact absurd ha hc
      · exact ih h1

theorem head?_dropWhile {p : Char → Bool} {l : List Char} {a : Char}
    (h : (l.dropWhile p).head? = some a) : p a = false := by
  induction l with
  | nil => simp [List.dropWhile] at h
  | cons c rest ih =>
    rw [List.dropWhile_cons] at h
    by_cases hc : p c = true
    · rw [if_pos hc] at h
      exact ih h
    · rw [if_neg hc] at h
      simp only [List.head?_cons, Option.some.injEq] at h
      subst h
      simpa using hc

theorem getLast?_dropWhile {p : Char → Bool} {l : List Char} {a : Char}
    (h : (l.dropWhile p).getLast? = some a) : l.getLast? = some a := by
  induction l with
  | nil => simp [List.dropWhile] at h
  | cons c rest ih =>
    rw [List.dropWhile_cons] at h
    by_cases hc : p c = true
    · rw [if_pos hc] at h
      have hr := ih h
      have hne : rest ≠ [] := by
        rintro rfl
        simp at hr
      obtain ⟨b, t, rfl⟩ := List.exists_cons_of_ne_nil hne
      rw [List.getLast?_cons_cons]
      exact hr
    · rw [if_neg hc] at h
      exact h

theorem mem_dropTrail {p : Char → Bool} {l : List Char} {a : Char}
    (h : a ∈ dropTrail p l) : a ∈ l := by
  unfold dropTrail at h
  rw [List.mem_reverse] at h
  exact List.mem_reverse.mp ((List.dropWhile_sublist _).mem h)

theorem mem_dropWhileChar {p : Char → Bool} {l : List Char} {a : Char}
    (h : a ∈ l.dropWhile p) : a ∈ l :=
  (List.dropWhile_sublist _).mem h

theorem mem_pyStrip {a : Char} {l : List Char} (h : a ∈ pyStrip l) : a ∈ l :=
  mem_dropWhileChar (mem_dropTrail h)

/-- Every character surviving `canonList` is half-width, non-whitespace,
lower-case-fixed and not a parenthesis. -/
theorem canonList_chars {c : Char} {l : List Char} (hc : c ∈ canonList l) :
    isFullWidth c = false ∧ isPySpace c = false ∧ Char.toLower c = c ∧
      (c ≠ '(' ∧ c ≠ ')' ∧ c ≠ '（' ∧ c ≠ '）') := by
  simp only [canonList] at hc
  rw [List.mem_filter] at hc
  obtain ⟨hc, hq2⟩ := hc
  rw [List.mem_filter] at hc
  obtain ⟨hc, hq1⟩ := hc
  rw [List.mem_map] at hc
  obtain ⟨d, hd, rfl⟩ := hc
  rw [decide_eq_true_eq] at hq1 hq2
  have hd3 : d ∈ collapse ((l.map toHalfWidthChar).map fun c =>
      if c = '\n' then ' ' else c) := mem_pyStrip hd
  have hdFW : isFullWidth d = false := by
    rcases mem_collapse hd3 with rfl | hd2
    · decide
    · rw [List.mem_map] at hd2
      obtain ⟨e, he2, rfl⟩ := hd2
      rw [List.mem_map] at he2
      obtain ⟨f, _, rfl⟩ := he2
      by_cases hnl : toHalfWidthChar f = '\n'
      · rw [if_pos hnl]
        decide
      · rw [if_neg hnl]
        exact toHalfWidthChar_not_fullWidth f
  refine ⟨?_, ?_, toLower_toLower d, hq1⟩
  · rw [isFullWidth_toLower]
    exact hdFW
  · cases hsp : isPySpace d with
    | false =>
      rw [isPySpace_toLower]
      exact hsp
    | true =>
      have hblank : d = ' ' := collapse_space hd3 hsp
      subst hblank
      exact absurd (by decide : Char.toLower ' ' = ' ') hq2

theorem canonList_idem (l : List Char) : canonList (canonList l) = canonList l := by
  set m := canonList l with hm
  have hP : ∀ c ∈ m, isFullWidth c = false ∧ isPySpace c = false ∧ Char.toLower c = c ∧
      (c ≠ '(' ∧ c ≠ ')' ∧ c ≠ '（' ∧ c ≠ '）') := by
    intro c hc
    rw [hm] at hc
    exact canonList_chars hc
  simp only [canonList]
  rw [map_id_of toHalfWidthChar m (fun c hc => toHalfWidthChar_id (hP c hc).1)]
  rw [map_id_of (fun c => if c = '\n' then ' ' else c) m (fun c hc => by
    have hne : c ≠ '\n' := by
      intro he
      have hsp := (hP c hc).2.1
      rw [he] at hsp
      exact absurd hsp (by decide)
    exact if_neg hne)]
  rw [collapse_id (fun c hc => (hP c hc).2.1)]
  rw [pyStrip_id (fun c hc => (hP c hc).2.1)]
  rw [map_id_of Char.toLower m (fun c hc => (hP c hc).2.2.1)]
  rw [List.filter_eq_self.mpr (fun c hc => decide_eq_true (hP c hc).2.2.2)]
  rw [List.filter_eq_self.mpr (fun c hc => decide_eq_true (by
    intro he
    have hsp := (hP c hc).2.1
    rw [he] at hsp
    exact absurd hsp (by decide)))]

/-! ### Claims about the allocator and quantization -/

/-- C1, counterexample: the sum invariant as stated fails on the code.
With total 1.00 and the non-empty share list [0] the result sums to 0.00,
not to `quantize_2 1.00`; and even with a nonzero share sum, total 0.015
with shares [3, -1] sums to 0.01 while `quantize_2 0.015 = 0.02`. -/
theorem c1_counterexample :
    (allocate_proportional 1 [some 0]).sum ≠ quantize_2 1 ∧
      (allocate_proportional (3/200) [some 3, some (-1)]).sum ≠ quantize_2 (3/200) := by
  constructor
  · norm_num [allocate_proportional, allocGo, quantize_2, rhalf, orZero]
  · rw [allocate_cons _ _ _ (by norm_num [orZero])]
    norm_num [allocGo, quantize_2, rhalf, orZero]

/-- C1, amended: for every total that is an integer number of cents and
every share list whose sum is nonzero, the allocations sum exactly to
`quantize_2` of the total (which fixes such totals). -/
theorem c1_sum_invariant (k : ℤ) (S : List (Option ℚ)) (h : (S.map orZero).sum ≠ 0) :
    (allocate_proportional ((k : ℚ) / 100) S).sum = quantize_2 ((k : ℚ) / 100) := by
  have hS : S ≠ [] := by rintro rfl; exact h (by simp)
  obtain ⟨s, ss, rfl⟩ := List.exists_cons_of_ne_nil hS
  rw [allocate_cons _ _ _ h, allocGo_sum _ _ _ hS, zero_add]
  obtain ⟨m, hm⟩ := sum_cents ((s :: ss).dropLast.map fun t =>
      quantize_2 ((k : ℚ) / 100 * orZero t / (((s :: ss).map orZero).sum)))
    (fun x hx => by
      obtain ⟨t, _, rfl⟩ := List.mem_map.mp hx
      exact quantize_2_form _)
  rw [hm, show (k : ℚ)/100 - (m : ℚ)/100 = ((k - m : ℤ) : ℚ)/100 by push_cast; ring,
    quantize_2_cents, quantize_2_cents]
  push_cast
  ring

/-- C1, witness: a concrete cent-exact total and nonzero share list. -/
theorem c1_witness :
    (allocate_proportional ((10000 : ℤ) / 100 : ℚ) [some 1, some 1, some 1]).sum =
      quantize_2 (((10000 : ℤ) : ℚ) / 100) := by
  have h : (([some 1, some 1, some 1] : List (Option ℚ)).map orZero).sum ≠ 0 := by
    norm_num [orZero]
  exact_mod_cast c1_sum_invariant 10000 [some 1, some 1, some 1] h

/-- C2: when the share sum is nonzero, every element except the last is
the quantized proportional part of the corresponding input share, the
last element is the quantized remainder of the total over the running sum
of the prior quantized parts, and on total 100 with shares [1,1,1] the
result is [33.33, 33.33, 33.34]. -/
theorem c2_allocation :
    (∀ (T : ℚ) (S : List (Option ℚ)), (S.map orZero).sum ≠ 0 →
      (∀ i : ℕ, i + 1 < S.length →
        (allocate_proportional T S)[i]? =
          (S[i]?).map fun s => quantize_2 (T * orZero s / (S.map orZero).sum)) ∧
      (allocate_proportional T S).getLast? =
        some (quantize_2 (T -
          (S.dropLast.map fun s => quantize_2 (T * orZero s / (S.map orZero).sum)).sum))) ∧
    allocate_proportional 100 [some 1, some 1, some 1] = [3333/100, 3333/100, 3334/100] := by
  constructor
  · intro T S hts
    have hS : S ≠ [] := by rintro rfl; exact hts (by simp)
    obtain ⟨s, ss, rfl⟩ := List.exists_cons_of_ne_nil hS
    rw [allocate_cons _ _ _ hts, allocGo_eq _ _ _ hS, zero_add]
    constructor
    · intro i hi
      have hiA : i < ((s :: ss).dropLast.map fun t =>
          quantize_2 (T * orZero t / (((s :: ss).map orZero).sum))).length := by
        rw [List.length_map, List.length_dropLast]
        omega
      rw [List.getElem?_append_left hiA, List.getElem?_map, List.dropLast_eq_take,
        List.getElem?_take, if_pos (by omega : i < (s :: ss).length - 1)]
    · exact List.getLast?_concat _
  · rw [allocate_cons _ _ _ (by norm_num [orZero])]
    norm_num [allocGo, quantize_2, rhalf, orZero]

/-- C2, witness: the general clauses applied to total 100, shares [1,1,1]. -/
theorem c2_witness :
    (allocate_proportional 100 [some 1, some 1, some 1])[0]? =
      (([some 1, some 1, some 1] : List (Option ℚ))[0]?).map
        (fun s => quantize_2 (100 * orZero s /
          (([some 1, some 1, some 1] : List (Option ℚ)).map orZero).sum)) ∧
    (allocate_proportional 100 [some 1, some 1, some 1]).getLast? =
      some (quantize_2 (100 -
        (([some 1, some 1, some 1] : List (Option ℚ)).dropLast.map
          fun s => quantize_2 (100 * orZero s /
            (([some 1, some 1, some 1] : List (Option ℚ)).map orZero).sum)).sum)) := by
  have h := (c2_allocation.1 100 [some 1, some 1, some 1] (by norm_num [orZero]))
  exact ⟨h.1 0 (by norm_num), h.2⟩

/-- C3: the empty share list yields the empty allocation, and a non-empty
share list with zero sum (absent shares counting as zero) yields a list
of the same length filled with 0.00; neither case is an error. -/
theorem c3_degenerate :
    (∀ T : ℚ, allocate_proportional T [] = []) ∧
    (∀ (T : ℚ) (S : List (Option ℚ)), S ≠ [] → (S.map orZero).sum = 0 →
      allocate_proportional T S = S.map fun _ => (0 : ℚ)) := by
  exact ⟨fun _ => rfl, fun T S hS h0 => allocate_zero T S hS h0⟩

/-- C3, witness: an absent share and a zero share. -/
theorem c3_witness :
    allocate_proportional 7 [Option.none, some 0] =
      ([Option.none, some (0 : ℚ)]).map fun _ => (0 : ℚ) :=
  c3_degenerate.2 7 [Option.none, some 0] (by simp) (by norm_num [orZero])

/-- C4: `quantize_2` produces an integer number of cents at distance at
most half a cent from its argument, ties are resolved away from zero
(the absolute value grows by exactly half a cent on a tie), and in
particular 0.005 rounds to 0.01 and -0.005 to -0.01 (not to 0.00 as
banker's rounding would give). -/
theorem c4_rounding :
    (∀ q : ℚ, (quantize_2 q * 100).den = 1 ∧ |q - quantize_2 q| ≤ 1 / 200 ∧
      (|q - quantize_2 q| = 1 / 200 → |quantize_2 q| = |q| + 1 / 200)) ∧
    quantize_2 (1/200) = 1/100 ∧ quantize_2 (-(1/200)) = -(1/100) := by
  refine ⟨fun q => ⟨quantize_2_den q, quantize_2_near q, quantize_2_tie q⟩, ?_, ?_⟩
  · norm_num [quantize_2, rhalf]
  · norm_num [quantize_2, rhalf]

/-- C4, witness: the tie clause fires at 0.005 and rounds away from zero. -/
theorem c4_witness :
    |(1 : ℚ)/200 - quantize_2 (1/200)| = 1 / 200 ∧
      |quantize_2 ((1 : ℚ)/200)| = |(1 : ℚ)/200| + 1 / 200 := by
  have h : |(1 : ℚ)/200 - quantize_2 (1/200)| = 1 / 200 := by
    norm_num [quantize_2, rhalf]
  exact ⟨h, (c4_rounding.1 (1/200)).2.2 h⟩

/-- C8: a holding row whose normalized product and customer names are
non-empty is kept even when the share cell is null, and the allocator
treats a null share exactly as a zero share. -/
theorem c8_null_share :
    (∀ p c : String,
      normalize_whitespace (pyStripStr p) ≠ "" → normalize_whitespace (pyStripStr c) ≠ "" →
      process_holding_row p c PyVal.none =
        some ⟨normalize_whitespace (pyStripStr p), normalize_whitespace (pyStripStr c),
          Option.none⟩) ∧
    (∀ (T : ℚ) (S : List (Option ℚ)),
      allocate_proportional T S = allocate_proportional T (S.map fun s => some (orZero s))) := by
  constructor
  · intro p c hp hc
    simp only [process_holding_row]
    rw [if_neg (not_or.mpr ⟨hp, hc⟩)]
    rfl
  · intro T S
    rcases eq_or_ne S [] with rfl | hS
    · rfl
    have hmaps := map_orZero_some S
    have hS2 : S.map (fun s => some (orZero s)) ≠ [] := by
      simpa using hS
    rcases eq_or_ne ((S.map orZero).sum) 0 with hts | hts
    · rw [allocate_zero _ _ hS hts, allocate_zero _ _ hS2 (by rw [hmaps]; exact hts),
        List.map_map]
      exact List.map_congr_left fun a _ => rfl
    · obtain ⟨s, ss, rfl⟩ := List.exists_cons_of_ne_nil hS
      rw [allocate_cons _ _ _ hts, show ((s :: ss).map fun t => some (orZero t)) =
        some (orZero s) :: (ss.map fun t => some (orZero t)) from rfl,
        allocate_cons _ _ _ (by
          rw [show (some (orZero s) :: (ss.map fun t => some (orZero t))) =
            ((s :: ss).map fun t => some (orZero t)) from rfl, hmaps]
          exact hts),
        show (some (orZero s) :: (ss.map fun t => some (orZero t))) =
          ((s :: ss).map fun t => some (orZero t)) from rfl, hmaps,
        allocGo_map_some]

/-! ### Claims about `to_decimal` -/

/-- C5: `to_decimal` yields no value on null, the empty string and the
literal tokens nan/none/null (case-insensitively, checked on the stripped
input); it reads a fully parenthesized value as a negative, strips
thousands commas and the currency marker; unparseable remainders yield no
value (the function is total, so it never throws). -/
theorem c5_to_decimal :
    to_decimal PyVal.none = Option.none ∧
    to_decimal (.str "") = Option.none ∧
    (∀ s : String,
      (pyLower (pyStripStr s) = "nan" ∨ pyLower (pyStripStr s) = "none" ∨
        pyLower (pyStripStr s) = "null") →
      to_decimal (.str s) = Option.none) ∧
    to_decimal (.str "(1,234.50)") = some (.finite (-1234.5)) ∧
    to_decimal (.str "1,234.50元") = some (.finite 1234.5) ∧
    to_decimal (.str "nan") = Option.none := by
  refine ⟨rfl, by decide, ?_, ?_, ?_, by decide⟩
  · intro s h
    simp only [to_decimal]
    rw [if_pos]
    rcases h with h | h | h
    · exact Or.inr (Or.inl h)
    · exact Or.inr (Or.inr (Or.inl h))
    · exact Or.inr (Or.inr (Or.inr h))
  · simp only [to_decimal]
    rw [if_neg (by decide)]
    rw [show moneyStrip (pyStripStr "(1,234.50)") = "-1234.50" from by decide]
    simp only [parseDecimalString]
    rw [show parseDecimalSym "-1234.50" = some (.fin true 123450 2 Option.none) from by decide]
    simp only [Option.map]
    norm_num [decSymVal]
  · simp only [to_decimal]
    rw [if_neg (by decide)]
    rw [show moneyStrip (pyStripStr "1,234.50元") = "1234.50" from by decide]
    simp only [parseDecimalString]
    rw [show parseDecimalSym "1234.50" = some (.fin false 123450 2 Option.none) from by decide]
    simp only [Option.map]
    norm_num [decSymVal]

/-- C5, witness: the token clause applied to the concrete string "NaN". -/
theorem c5_witness : to_decimal (.str "NaN") = Option.none :=
  c5_to_decimal.2.2.1 "NaN" (Or.inl (by decide))

/-- C10: inputs that only become the token "nan" after the
comma/currency/width/blank stripping bypass the early check and are
accepted by the decimal parse as NaN — unlike the plain "nan", which the
early check rejects. -/
theorem c10_nan_leak :
    to_decimal (.str "nan元") = some .nan ∧
    to_decimal (.str "ｎａｎ") = some .nan ∧
    to_decimal (.str "nan") = Option.none := by
  refine ⟨by decide, by decide, by decide⟩

/-! ### Claims about `sanitize_file_stem` -/

/-- C9, counterexample: the claimed description ("strips trailing
periods") disagrees with the code, which also strips leading periods. -/
theorem c9_counterexample :
    sanitize_file_stem ".a" = "a" ∧ sanitizeStemClaimed ".a" = ".a" ∧
      sanitize_file_stem ".a" ≠ sanitizeStemClaimed ".a" := by
  refine ⟨by decide, by decide, by decide⟩

/-- C9, amended: `sanitize_file_stem` normalizes whitespace and width,
replaces filesystem-illegal characters by underscores, strips LEADING AND
trailing periods, and falls back to the fixed placeholder on emptiness;
consequently the result is never empty, contains no illegal character,
and neither starts nor ends with a period. -/
theorem c9_sanitize (name : String) :
    sanitize_file_stem name = sanitizeStemAmended name ∧
    sanitize_file_stem name ≠ "" ∧
    (∀ c ∈ (sanitize_file_stem name).data, illegalFileChar c = false) ∧
    (sanitize_file_stem name).data.head? ≠ some '.' ∧
    (sanitize_file_stem name).data.getLast? ≠ some '.' := by
  refine ⟨rfl, ?_⟩
  simp only [sanitize_file_stem]
  set x := ((to_half_width (normalize_whitespace name)).data.map
    fun c => if illegalFileChar c then '_' else c) with hx
  set s := dropTrail (fun c => decide (c = '.'))
    (x.dropWhile (fun c => decide (c = '.'))) with hs
  by_cases hnil : s = []
  · rw [if_pos hnil]
    refine ⟨by decide, by decide, by decide, by decide⟩
  · rw [if_neg hnil]
    refine ⟨?_, ?_, ?_, ?_⟩
    · intro h
      exact hnil (congrArg String.data h)
    · intro c hc
      have hcx : c ∈ x := mem_dropWhileChar (mem_dropTrail hc)
      rw [hx] at hcx
      obtain ⟨d, _, rfl⟩ := List.mem_map.mp hcx
      by_cases hd : illegalFileChar d = true
      · rw [if_pos hd]
        decide
      · rw [if_neg hd]
        exact eq_false_of_ne_true hd
    · intro h
      have h0 : ((x.dropWhile (fun c => decide (c = '.'))).reverse.dropWhile
          (fun c => decide (c = '.'))).getLast? = some '.' :=
        (List.head?_reverse _).symm.trans h
      have h2 := getLast?_dropWhile h0
      rw [List.getLast?_reverse] at h2
      have h3 := head?_dropWhile h2
      simp at h3
    · intro h
      have h0 : ((x.dropWhile (fun c => decide (c = '.'))).reverse.dropWhile
          (fun c => decide (c = '.'))).head? = some '.' :=
        (List.getLast?_reverse _).symm.trans h
      have h3 := head?_dropWhile h0
      simp at h3

/-- C9, witness for the amended claim: a messy concrete name, with the
no-illegal-character clause instantiated at an underscore produced by
the replacement step. -/
theorem c9_witness :
    sanitize_file_stem "a/b:c." ≠ "" ∧ illegalFileChar '_' = false :=
  ⟨(c9_sanitize "a/b:c.").2.1, (c9_sanitize "a/b:c.").2.2.1 '_' (by decide)⟩

/-- C7: `canonicalize_header` is idempotent. -/
theorem c7_idempotent (x : String) :
    canonicalize_header (canonicalize_header x) = canonicalize_header x := by
  show (⟨canonList (String.mk (canonList x.data)).data⟩ : String) = ⟨canonList x.data⟩
  rw [show (String.mk (canonList x.data)).data = canonList x.data from rfl, canonList_idem]

/-! ### Lemmas about the header scan loop -/

theorem scanLoop_cons (sc : Nat) (rest : List Nat) (idx : Nat) (br : Option Nat) (bs : Int) :
    scanLoop (sc :: rest) idx (br, bs) =
      if bs < (sc : Int) then scanLoop rest (idx + 1) (some idx, (sc : Int))
      else scanLoop rest (idx + 1) (br, bs) := rfl

theorem scanLoop_snd (ss : List Nat) : ∀ (idx : Nat) (br : Option Nat) (bs : Int),
    (scanLoop ss idx (br, bs)).2 = foldMax ss bs := by
  induction ss with
  | nil => intros; rfl
  | cons sc rest ih =>
    intro idx br bs
    rw [scanLoop_cons]
    by_cases h : bs < (sc : Int)
    · rw [if_pos h, ih]
      show foldMax rest (sc : Int) = foldMax rest (max bs (sc : Int))
      rw [max_eq_right h.le]
    · rw [if_neg h, ih]
      show foldMax rest bs = foldMax rest (max bs (sc : Int))
      rw [max_eq_left (not_lt.mp h)]

theorem scanLoop_fst_none (ss : List Nat) : ∀ (idx : Nat) (br : Option Nat) (bs : Int),
    (∀ n ∈ ss, (n : Int) ≤ bs) → (scanLoop ss idx (br, bs)).1 = br := by
  induction ss with
  | nil => intros; rfl
  | cons sc rest ih =>
    intro idx br bs h
    rw [scanLoop_cons, if_neg (not_lt.mpr (h sc (List.mem_cons_self sc rest)))]
    exact ih (idx + 1) br bs (fun n hn => h n (List.mem_cons_of_mem sc hn))

theorem foldMax_le (ss : List Nat) : ∀ (bs c : Int), bs ≤ c → (∀ n ∈ ss, (n : Int) ≤ c) →
    foldMax ss bs ≤ c := by
  induction ss with
  | nil => intro bs c h _; exact h
  | cons sc rest ih =>
    intro bs c h hall
    show foldMax rest (max bs (sc : Int)) ≤ c
    exact ih _ c (max_le h (hall sc (List.mem_cons_self sc rest)))
      (fun n hn => hall n (List.mem_cons_of_mem sc hn))

theorem init_le_foldMax (ss : List Nat) : ∀ bs : Int, bs ≤ foldMax ss bs := by
  induction ss with
  | nil => intro bs; exact le_rfl
  | cons sc rest ih =>
    intro bs
    show bs ≤ foldMax rest (max bs (sc : Int))
    exact le_trans (le_max_left _ _) (ih _)

theorem le_foldMax (ss : List Nat) : ∀ (bs : Int), ∀ n ∈ ss, (n : Int) ≤ foldMax ss bs := by
  induction ss with
  | nil => intro bs n hn; cases hn
  | cons sc rest ih =>
    intro bs n hn
    rcases List.mem_cons.mp hn with rfl | hn2
    · show (n : Int) ≤ foldMax rest (max bs (n : Int))
      exact le_trans (le_max_right _ _) (init_le_foldMax rest _)
    · show (n : Int) ≤ foldMax rest (max bs (sc : Int))
      exact ih _ n hn2

theorem scanLoop_fst_some (ss : List Nat) : ∀ (idx : Nat) (br : Option Nat) (bs : Int),
    (∃ n ∈ ss, bs < (n : Int)) →
    ∃ j, ∃ hj : j < ss.length, (scanLoop ss idx (br, bs)).1 = some (idx + j) ∧
      bs < (ss.get ⟨j, hj⟩ : Int) ∧
      (∀ k (hk : k < ss.length), ss.get ⟨k, hk⟩ ≤ ss.get ⟨j, hj⟩) ∧
      (∀ k (hk : k < j), ss.get ⟨k, lt_trans hk hj⟩ < ss.get ⟨j, hj⟩) := by
  induction ss with
  | nil => rintro idx br bs ⟨n, hn, _⟩; cases hn
  | cons sc rest ih =>
    intro idx br bs hex
    rw [scanLoop_cons]
    by_cases hlt : bs < (sc : Int)
    · rw [if_pos hlt]
      by_cases hrest : ∃ n ∈ rest, (sc : Int) < (n : Int)
      · obtain ⟨j, hj, h1, h2, h3, h4⟩ := ih (idx + 1) (some idx) (sc : Int) hrest
        refine ⟨j + 1, Nat.succ_lt_succ hj, ?_, ?_, ?_, ?_⟩
        · rw [h1]
          exact congrArg some (by omega)
        · exact lt_trans hlt h2
        · intro k hk
          match k with
          | 0 => exact (Nat.cast_lt.mp h2).le
          | k + 1 => exact h3 k (Nat.lt_of_succ_lt_succ hk)
        · intro k hk
          match k with
          | 0 => exact Nat.cast_lt.mp h2
          | k + 1 => exact h4 k (Nat.lt_of_succ_lt_succ hk)
      · push_neg at hrest
        refine ⟨0, Nat.succ_pos _, ?_, hlt, ?_, ?_⟩
        · rw [scanLoop_fst_none rest (idx + 1) (some idx) (sc : Int) hrest]
          exact congrArg some (by omega)
        · intro k hk
          match k with
          | 0 => exact le_rfl
          | k + 1 =>
            exact Nat.cast_le.mp (hrest _ (List.get_mem rest k (Nat.lt_of_succ_lt_succ hk)))
        · intro k hk
          cases hk
    · rw [if_neg hlt]
      have hbs : (sc : Int) ≤ bs := not_lt.mp hlt
      obtain ⟨n, hn, hbsn⟩ := hex
      rcases List.mem_cons.mp hn with rfl | hn2
      · exact absurd hbsn hlt
      obtain ⟨j, hj, h1, h2, h3, h4⟩ := ih (idx + 1) br bs ⟨n, hn2, hbsn⟩
      refine ⟨j + 1, Nat.succ_lt_succ hj, ?_, h2, ?_, ?_⟩
      · rw [h1]
        exact congrArg some (by omega)
      · intro k hk
        match k with
        | 0 => exact (Nat.cast_lt.mp (lt_of_le_of_lt hbs h2)).le
        | k + 1 => exact h3 k (Nat.lt_of_succ_lt_succ hk)
      · intro k hk
        match k with
        | 0 => exact Nat.cast_lt.mp (lt_of_le_of_lt hbs h2)
        | k + 1 => exact h4 k (Nat.lt_of_succ_lt_succ hk)

/-- C6: the fallback header scan looks at no more than the first 6 raw
rows; it fails (header-not-found) exactly when every scanned row scores 0
fields; and a selected row has a positive score that is maximal among the
scanned rows and strictly above every earlier row's score. -/
theorem c6_header_scan (required : List (List String)) (raw : List (List String)) :
    fallback_detect required raw = fallback_detect required (raw.take 6) ∧
    (fallback_detect required raw = Option.none ↔
      ∀ row ∈ raw.take 6, rowScore required row = 0) ∧
    (∀ r : ℕ, fallback_detect required raw = some r →
      ∃ row, (raw.take 6)[r]? = some row ∧ 0 < rowScore required row ∧
        (∀ (j : ℕ) (row2 : List String), (raw.take 6)[j]? = some row2 →
          rowScore required row2 ≤ rowScore required row) ∧
        (∀ (j : ℕ) (row2 : List String), j < r → (raw.take 6)[j]? = some row2 →
          rowScore required row2 < rowScore required row)) := by
  have hdet : fallback_detect required raw =
      match scanLoop ((raw.take 6).map (rowScore required)) 0 (Option.none, -1) with
      | (Option.none, _) => Option.none
      | (some r, bs) => if bs ≤ 0 then Option.none else some r := rfl
  refine ⟨?_, ?_⟩
  · have ht : (raw.take 6).take 6 = raw.take 6 := by
      rw [List.take_take]
      norm_num
    unfold fallback_detect
    rw [ht]
  set ss := (raw.take 6).map (rowScore required) with hss
  by_cases hz : ∀ n ∈ ss, n = 0
  · have hnone : fallback_detect required raw = Option.none := by
      rw [hdet]
      rcases hss0 : ss with _ | ⟨m, ms⟩
      · rfl
      · have hex : ∃ n ∈ ss, (-1 : Int) < (n : Int) :=
          ⟨m, by rw [hss0]; exact List.mem_cons_self m ms, by omega⟩
        obtain ⟨j, hj, h1, h2, h3, h4⟩ := scanLoop_fst_some ss 0 Option.none (-1) hex
        rw [← hss0]
        rcases hsc : scanLoop ss 0 (Option.none, -1) with ⟨br, bsv⟩
        rw [hsc] at h1
        simp only at h1
        have hbs2 : bsv = foldMax ss (-1) := by
          rw [← scanLoop_snd ss 0 Option.none (-1), hsc]
        have hle : bsv ≤ 0 := by
          rw [hbs2]
          exact foldMax_le ss (-1) 0 (by omega)
            (fun n hn => by have := hz n hn; omega)
        rw [h1]
        show (if bsv ≤ 0 then Option.none else some (0 + j)) = Option.none
        rw [if_pos hle]
    refine ⟨⟨fun _ => ?_, fun _ => hnone⟩, ?_⟩
    · intro row hrow
      exact hz (rowScore required row) (List.mem_map_of_mem (rowScore required) hrow)
    · intro r hr
      rw [hnone] at hr
      cases hr
  · push_neg at hz
    obtain ⟨n0, hn0, hne0⟩ := hz
    have hex : ∃ n ∈ ss, (-1 : Int) < (n : Int) := ⟨n0, hn0, by omega⟩
    obtain ⟨j, hj, h1, h2, h3, h4⟩ := scanLoop_fst_some ss 0 Option.none (-1) hex
    rcases hsc : scanLoop ss 0 (Option.none, -1) with ⟨br, bsv⟩
    rw [hsc] at h1
    simp only at h1
    have hbs2 : bsv = foldMax ss (-1) := by
      rw [← scanLoop_snd ss 0 Option.none (-1), hsc]
    have hjmax : bsv = (ss.get ⟨j, hj⟩ : Int) := by
      rw [hbs2]
      apply le_antisymm
      · refine foldMax_le ss (-1) _ (by omega) ?_
        intro n hn
        obtain ⟨⟨k, hk⟩, rfl⟩ := List.mem_iff_get.mp hn
        exact_mod_cast h3 k hk
      · exact le_foldMax ss (-1) _ (List.get_mem ss j hj)
    have hpos : 0 < ss.get ⟨j, hj⟩ := by
      have hn0' : (n0 : Int) ≤ foldMax ss (-1) := le_foldMax ss (-1) n0 hn0
      rw [← hbs2, hjmax] at hn0'
      omega
    have hdets : fallback_detect required raw = some j := by
      rw [hdet, hsc, h1]
      show (if bsv ≤ 0 then Option.none else some (0 + j)) = some j
      rw [if_neg (by omega), Nat.zero_add]
    have hjlen : j < (raw.take 6).length := by
      have := hj
      rw [hss, List.length_map] at this
      exact this
    have hget : ∀ k (hk : k < ss.length),
        ss.get ⟨k, hk⟩ = rowScore required ((raw.take 6).get
          ⟨k, by rw [hss, List.length_map] at hk; exact hk⟩) := by
      intro k hk
      simp only [hss, List.get_eq_getElem, List.getElem_map]
    refine ⟨⟨fun h => ?_, fun hall => ?_⟩, ?_⟩
    · rw [hdets] at h
      cases h
    · obtain ⟨row0, hrow0, rfl⟩ := List.mem_map.mp hn0
      exact absurd (hall row0 hrow0) hne0
    · intro r hr
      rw [hdets] at hr
      obtain rfl : j = r := by
        cases hr
        rfl
      refine ⟨(raw.take 6).get ⟨j, hjlen⟩, ?_, ?_, ?_, ?_⟩
      · rw [List.getElem?_eq_getElem hjlen, List.get_eq_getElem]
      · rw [← hget j hj]
        exact hpos
      · intro j2 row2 hrow2
        obtain ⟨hj2, rfl⟩ := List.getElem?_eq_some.mp hrow2
        have hj2' : j2 < ss.length := by
          rw [hss, List.length_map]
          exact hj2
        have := h3 j2 hj2'
        rw [hget j2 hj2', hget j hj] at this
        convert this using 2
      · intro j2 row2 hj2r hrow2
        obtain ⟨hj2, rfl⟩ := List.getElem?_eq_some.mp hrow2
        have := h4 j2 hj2r
        rw [hget j2 (lt_trans hj2r hj), hget j hj] at this
        convert this using 2

/-- C6, witness: a concrete sheet where the valid header sits on row
index 1 after a lower-scoring row, exercising the selected-row clause. -/
theorem c6_witness :
    ∃ row, ([["x"], ["product"]].take 6)[(1 : ℕ)]? = some row ∧
      0 < rowScore [["product"]] row ∧
      (∀ (j : ℕ) (row2 : List String), ([["x"], ["product"]].take 6)[j]? = some row2 →
        rowScore [["product"]] row2 ≤ rowScore [["product"]] row) ∧
      (∀ (j : ℕ) (row2 : List String), j < 1 → ([["x"], ["product"]].take 6)[j]? = some row2 →
        rowScore [["product"]] row2 < rowScore [["product"]] row) :=
  (c6_header_scan [["product"]] [["x"], ["product"]]).2.2 1 (by decide)

/-- C8, witness: a concrete kept row with a null share, and a concrete
allocation where the null share acts as zero. -/
theorem c8_witness :
    process_holding_row "P1" "C1" PyVal.none =
      some ⟨normalize_whitespace (pyStripStr "P1"), normalize_whitespace (pyStripStr "C1"),
        Option.none⟩ ∧
    allocate_proportional 10 [some 1, Option.none] =
      allocate_proportional 10 ([some 1, Option.none].map fun s => some (orZero s)) :=
  ⟨c8_null_share.1 "P1" "C1" (by decide) (by decide),
    c8_null_share.2 10 [some 1, Option.none]⟩
